import Mathlib

/-!
# Unsynchronised shared counter (`c-exp/clibs/main.c`)

A shallow embedding of the C program: `NUM_THREADS` POSIX threads each run
`AddThings`, which executes `counter += 1` on the global `int counter`
`NUM_INCREMENTS` times without any synchronisation; `main` creates the threads,
joins them and prints the counter.

* `counter += 1` is not atomic: it is a load of `counter` into a thread-private
  register followed by a store of the register plus one.  A worker is therefore
  a small state machine (`Worker`, `AddThings`) whose atomic steps are the load
  and the store; the loop test and `i++` only touch thread-private data and
  are fused with the adjacent shared access.
* A run is a schedule: the list of thread ids in the order in which they take
  their next atomic step.  Picking a thread that cannot move (not created,
  terminated, blocked in `pthread_join`) leaves the state unchanged.
* `pthread_create` is an environment call; its return codes are given by a
  function `rc : Nat → Int` (the code returned for `threads[t]`).
-/

namespace SharedCounter

/-! ## Constants and machine integers -/

/-- The constant `#define NUM_THREADS 20`. -/
def NUM_THREADS : Nat := 20

/-- The constant `#define NUM_INCREMENTS 1000000`. -/
def NUM_INCREMENTS : Nat := 1000000

/-- Largest value of a 32-bit C `int`. -/
def INT_MAX : Int := 2 ^ 31 - 1

/-- Reduction of an integer to the value held by a 32-bit `int` in twos-complement representation. -/
def wrapInt32 (x : Int) : Int := (x + 2 ^ 31) % 2 ^ 32 - 2 ^ 31

/-- The value `v + 1` in unbounded integer arithmetic. -/
def incrExact (v : Int) : Int := v + 1

/-- The value `v + 1` as stored into a 32-bit `int` (wrapping on overflow). -/
def incrInt32 (v : Int) : Int := wrapInt32 (v + 1)

/-! ## Workers -/

/-- Thread-private state of one worker running `AddThings`: the loop variable `i`
and, between the load and the store of `counter += 1`, the loaded value. -/
structure Worker where
  i : Nat
  reg : Option Int
deriving DecidableEq, Repr

/-- A worker that has just been created: `i = 0`, nothing loaded. -/
def Worker.init : Worker := { i := 0, reg := none }

/-- The worker has left the loop (`i < NUM_INCREMENTS` is false) and called
`pthread_exit`. -/
def Worker.done (n : Nat) (w : Worker) : Bool := w.reg.isNone && decide (n ≤ w.i)

/-- One atomic step of `AddThings` with `n` iterations, on counter value `c`:
the store half of `counter += 1` (followed by `i++`) when a value is loaded,
otherwise the load half when `i < n`, otherwise nothing (the thread has exited).
`incr` is the arithmetic of `+ 1`. Returns the new counter and worker. -/
def AddThings (incr : Int → Int) (n : Nat) (c : Int) (w : Worker) : Int × Worker :=
  match w.reg with
  | some v => (incr v, { i := w.i + 1, reg := none })
  | none => if w.i < n then (c, { i := w.i, reg := some c }) else (c, w)

/-- The counter and the workers that exist. -/
structure Mem where
  counter : Int
  workers : List Worker
deriving DecidableEq, Repr

/-- Worker `t` takes its next atomic step (nothing happens when there is no
worker `t`). -/
def stepWith (incr : Int → Int) (n : Nat) (m : Mem) (t : Nat) : Mem :=
  match m.workers[t]? with
  | none => m
  | some w =>
    let r := AddThings incr n m.counter w
    { counter := r.1, workers := m.workers.set t r.2 }

/-- Execute a schedule of worker ids from `m`. -/
def execWith (incr : Int → Int) (n : Nat) (m : Mem) (sched : List Nat) : Mem :=
  sched.foldl (stepWith incr n) m

/-- Initial memory: `counter = 0` (a global without initialiser) and `W` fresh workers. -/
def Mem.init (W : Nat) : Mem := { counter := 0, workers := List.replicate W Worker.init }

/-- All workers have terminated. -/
def Mem.allDone (n : Nat) (m : Mem) : Bool := m.workers.all (Worker.done n)

/-- Step in unbounded integer arithmetic. -/
def step (n : Nat) (m : Mem) (t : Nat) : Mem := stepWith incrExact n m t

/-- Run of `W` workers with `n` increments each under schedule `sched`, in
unbounded integer arithmetic. -/
def run (W n : Nat) (sched : List Nat) : Mem := execWith incrExact n (Mem.init W) sched

/-- The same run with the counter stored as a 32-bit `int`. -/
def run32 (W n : Nat) (sched : List Nat) : Mem := execWith incrInt32 n (Mem.init W) sched

/-- Thread ids of a schedule of the whole process: `main`, or `threads[t]`. -/
inductive Tid
  | main
  | worker (t : Nat)
deriving DecidableEq, Repr

/-- Control points of `main`: at the head of the creation loop with loop
variable `t`, at the head of the join loop with loop variable `t`, before the
final `printf`, after `exit(status)`, after the final `pthread_exit(NULL)`. -/
inductive Pc
  | spawn (t : Nat)
  | join (t : Nat)
  | report
  | exited (status : Int)
  | finished
deriving DecidableEq, Repr

/-- Observable actions of `main`: `pthread_create` for `threads[t]` returning
`rc`, `pthread_join(threads[t], NULL)` returning, the two `printf` calls with
their argument, `exit(status)`, and the final `pthread_exit(NULL)`. -/
inductive Action
  | create (t : Nat) (rc : Int)
  | join (t : Nat)
  | printError (rc : Int)
  | printFinal (c : Int)
  | exit (status : Int)
  | threadExit
deriving DecidableEq, Repr

/-- Text written to standard output by an action (the `printf` format strings
with `%d` rendered in decimal). -/
def Action.output : Action → Option String
  | .printError rc => some ("ERROR; return code from pthread_create() is " ++ toString rc ++ "\n")
  | .printFinal c => some ("Final value of counter is: " ++ toString c ++ "\n")
  | _ => none

/-- Standard output of a trace of actions, one entry per `printf` call. -/
def stdout (tr : List Action) : List String := tr.filterMap Action.output

/-- A successful `pthread_create` (return code `0`). -/
def Action.isSpawn : Action → Bool
  | .create _ rc => rc == 0
  | _ => false

/-- A `pthread_join` that returned. -/
def Action.isJoin : Action → Bool
  | .join _ => true
  | _ => false

/-- Number of workers successfully spawned in a trace. -/
def spawnCount (tr : List Action) : Nat := tr.countP Action.isSpawn

/-- Number of workers joined in a trace. -/
def joinCount (tr : List Action) : Nat := tr.countP Action.isJoin

/-- State of the process: control point of `main`, shared memory with the
threads created so far, and the actions `main` has performed. -/
structure Sys where
  pc : Pc
  mem : Mem
  trace : List Action
deriving DecidableEq, Repr

/-- Process start: `main` enters the creation loop with `t = 0`, `counter = 0`,
no thread exists. -/
def Sys.init : Sys := { pc := .spawn 0, mem := { counter := 0, workers := [] }, trace := [] }

/-- One step of `main` with `W` threads. In the creation loop a non-zero return
code prints the error and calls `exit(1)`; otherwise the new thread exists and
`t` is incremented. In the join loop `pthread_join(threads[t])` returns only
when thread `t` has terminated (otherwise `main` stays blocked). After the
loops `main` prints the counter and calls `pthread_exit`. -/
def mainStep (W n : Nat) (rc : Nat → Int) (s : Sys) : Sys :=
  match s.pc with
  | .spawn t =>
    if t < W then
      if rc t ≠ 0 then
        { s with pc := .exited 1,
                 trace := s.trace ++ [.create t (rc t), .printError (rc t), .exit 1] }
      else
        { s with pc := .spawn (t + 1),
                 mem := { s.mem with workers := s.mem.workers ++ [Worker.init] },
                 trace := s.trace ++ [.create t 0] }
    else { s with pc := .join 0 }
  | .join t =>
    if t < W then
      match s.mem.workers[t]? with
      | some w => if w.done n then { s with pc := .join (t + 1), trace := s.trace ++ [.join t] } else s
      | none => s
    else { s with pc := .report }
  | .report =>
    { s with pc := .finished, trace := s.trace ++ [.printFinal s.mem.counter, .threadExit] }
  | .exited _ => s
  | .finished => s

/-- One step of the process: the scheduled thread moves. After `exit` no
thread runs any more. -/
def sysStep (W n : Nat) (rc : Nat → Int) (s : Sys) : Tid → Sys
  | .main => mainStep W n rc s
  | .worker t =>
    match s.pc with
    | .exited _ => s
    | _ => { s with mem := step n s.mem t }

/-- Execute a schedule of thread ids from `s`. -/
def sysExecFrom (W n : Nat) (rc : Nat → Int) (s : Sys) (sched : List Tid) : Sys :=
  sched.foldl (sysStep W n rc) s

/-- Run the process under a schedule from its start. -/
def sysExec (W n : Nat) (rc : Nat → Int) (sched : List Tid) : Sys :=
  sysExecFrom W n rc Sys.init sched

/-- The actions of `k` successful `pthread_create` calls, `threads[0]` to `threads[k-1]`. -/
def spawnActions (k : Nat) : List Action := (List.range k).map fun t => Action.create t 0

/-- The actions of joining `threads[0]` to `threads[k-1]` in order. -/
def joinActions (k : Nat) : List Action := (List.range k).map Action.join

/-- The process has terminated: `main` called `exit`, or `main` called
`pthread_exit` after every worker had terminated. -/
def Sys.terminated (s : Sys) : Bool :=
  match s.pc with
  | .exited _ => true
  | .finished => true
  | _ => false

/-! ## Quantities and invariants used in the proofs -/

/-- Number of increments completed so far by all workers (sum of the loop variables). -/
def total (ws : List Worker) : Nat := (ws.map Worker.i).sum

/-- Every value in memory is between `0` and the number of completed increments,
and no worker exceeds its `n` iterations. -/
def UpperInv (n : Nat) (m : Mem) : Prop :=
  0 ≤ m.counter ∧ m.counter ≤ total m.workers ∧
  ∀ (u : Nat) (w : Worker), m.workers[u]? = some w →
    w.i ≤ n ∧ ∀ v, w.reg = some v → w.i < n ∧ 0 ≤ v ∧ v ≤ total m.workers

/-- What holds of the process at each control point of `main`: the shape of the
trace, the number of threads created, and which workers are known to have
terminated. -/
def SysInv (W n : Nat) (rc : Nat → Int) (s : Sys) : Prop :=
  match s.pc with
  | .spawn k =>
    k ≤ W ∧ (∀ t, t < k → rc t = 0) ∧ s.trace = spawnActions k ∧ s.mem.workers.length = k
  | .join k =>
    k ≤ W ∧ (∀ t, t < W → rc t = 0) ∧ s.trace = spawnActions W ++ joinActions k ∧
      s.mem.workers.length = W ∧
      ∀ t, t < k → ∃ w, s.mem.workers[t]? = some w ∧ w.done n = true
  | .report =>
    (∀ t, t < W → rc t = 0) ∧ s.trace = spawnActions W ++ joinActions W ∧
      s.mem.workers.length = W ∧ s.mem.allDone n = true
  | .finished =>
    (∀ t, t < W → rc t = 0) ∧
      s.trace = spawnActions W ++ joinActions W ++ [.printFinal s.mem.counter, .threadExit] ∧
      s.mem.workers.length = W ∧ s.mem.allDone n = true
  | .exited st =>
    st = 1 ∧ ∃ k, k < W ∧ rc k ≠ 0 ∧ (∀ t, t < k → rc t = 0) ∧
      s.trace = spawnActions k ++ [.create k (rc k), .printError (rc k), .exit 1] ∧
      s.mem.workers.length = k

theorem sum_map_set (f : Worker → Nat) :
    ∀ (ws : List Worker) (t : Nat) (w w' : Worker), ws[t]? = some w →
      ((ws.set t w').map f).sum + f w = (ws.map f).sum + f w'
  | [], t, w, w', h => by simp at h
  | x :: xs, 0, w, w', h => by
    simp at h
    subst h
    simp
    omega
  | x :: xs, t + 1, w, w', h => by
    simp at h
    have ih := sum_map_set f xs t w w' h
    simp only [List.set_cons_succ, List.map_cons, List.sum_cons]
    omega

theorem set_same : ∀ (ws : List Worker) (t : Nat) (w : Worker), ws[t]? = some w → ws.set t w = ws
  | [], _, _, h => by simp at h
  | x :: xs, 0, w, h => by
    simp at h
    simp [h]
  | x :: xs, t + 1, w, h => by
    simp at h
    simp [set_same xs t w h]

theorem total_set_load (ws : List Worker) (t : Nat) (w w' : Worker) (h : ws[t]? = some w)
    (hi : w'.i = w.i) : total (ws.set t w') = total ws := by
  have := sum_map_set Worker.i ws t w w' h
  unfold total
  omega

theorem total_set_store (ws : List Worker) (t : Nat) (w w' : Worker) (h : ws[t]? = some w)
    (hi : w'.i = w.i + 1) : total (ws.set t w') = total ws + 1 := by
  have := sum_map_set Worker.i ws t w w' h
  unfold total
  omega

theorem total_le_of_forall (n : Nat) :
    ∀ ws : List Worker, (∀ (u : Nat) (w : Worker), ws[u]? = some w → w.i ≤ n) →
      total ws ≤ ws.length * n
  | [], _ => by simp [total]
  | x :: xs, h => by
    have hx : x.i ≤ n := h 0 x (by simp)
    have ih := total_le_of_forall n xs (fun u w hu => h (u + 1) w (by simpa using hu))
    simp only [total, List.map_cons, List.sum_cons, List.length_cons] at ih ⊢
    rw [Nat.add_mul]
    omega

/-- The three things a step can be: nothing, the load, or the store. -/
theorem stepWith_cases (incr : Int → Int) (n : Nat) (m : Mem) (t : Nat) :
    stepWith incr n m t = m ∨
    (∃ w, m.workers[t]? = some w ∧ w.reg = none ∧ w.i < n ∧
      stepWith incr n m t =
        { counter := m.counter, workers := m.workers.set t { i := w.i, reg := some m.counter } }) ∨
    (∃ w v, m.workers[t]? = some w ∧ w.reg = some v ∧
      stepWith incr n m t =
        { counter := incr v, workers := m.workers.set t { i := w.i + 1, reg := none } }) := by
  unfold stepWith
  cases h : m.workers[t]? with
  | none => exact Or.inl rfl
  | some w =>
    obtain ⟨i, reg⟩ := w
    cases reg with
    | some v => exact Or.inr (Or.inr ⟨_, v, rfl, rfl, by simp [AddThings]⟩)
    | none =>
      by_cases hi : i < n
      · exact Or.inr (Or.inl ⟨_, rfl, rfl, hi, by simp [AddThings, hi]⟩)
      · refine Or.inl ?_
        simp [AddThings, hi, set_same _ _ _ h]

theorem execWith_nil (incr : Int → Int) (n : Nat) (m : Mem) : execWith incr n m [] = m := rfl

theorem execWith_cons (incr : Int → Int) (n : Nat) (m : Mem) (t : Nat) (sched : List Nat) :
    execWith incr n m (t :: sched) = execWith incr n (stepWith incr n m t) sched := rfl

/-- A property preserved by every step holds after every schedule. -/
theorem execWith_invariant (incr : Int → Int) (n : Nat) (P : Mem → Prop)
    (hstep : ∀ m t, P m → P (stepWith incr n m t)) :
    ∀ (sched : List Nat) (m : Mem), P m → P (execWith incr n m sched)
  | [], _, h => h
  | t :: sched, m, h => execWith_invariant incr n P hstep sched _ (hstep m t h)

/-! ## Upper bound -/

theorem upperInv_init (W n : Nat) : UpperInv n (Mem.init W) := by
  refine ⟨le_refl _, by simp [Mem.init], ?_⟩
  intro u w hu
  simp only [Mem.init, List.getElem?_replicate] at hu
  split at hu
  · cases hu
    simp [Worker.init]
  · cases hu

theorem upperInv_step (n : Nat) (m : Mem) (t : Nat) (h : UpperInv n m) :
    UpperInv n (step n m t) := by
  obtain ⟨h0, hc, hw⟩ := h
  rcases stepWith_cases incrExact n m t with he | ⟨w, hget, hreg, hi, he⟩ | ⟨w, v, hget, hreg, he⟩
  · rw [step, he]
    exact ⟨h0, hc, hw⟩
  · rw [step, he]
    have ht := total_set_load m.workers t w { i := w.i, reg := some m.counter } hget rfl
    refine ⟨h0, by simpa [ht] using hc, ?_⟩
    intro u w2 hu
    simp only [ht]
    simp only [List.getElem?_set] at hu
    split at hu
    · split at hu
      · cases hu
        exact ⟨(hw t w hget).1, fun v hv => by cases hv; exact ⟨hi, h0, hc⟩⟩
      · cases hu
    · exact hw u w2 hu
  · rw [step, he]
    have ht := total_set_store m.workers t w { i := w.i + 1, reg := none } hget rfl
    obtain ⟨hin, hv0, hvt⟩ := (hw t w hget).2 v hreg
    refine ⟨by simp only [incrExact]; omega, by simp only [incrExact, ht]; push_cast; omega, ?_⟩
    intro u w2 hu
    simp only [ht]
    simp only [List.getElem?_set] at hu
    split at hu
    · split at hu
      · cases hu
        exact ⟨hin, fun v hv => by cases hv⟩
      · cases hu
    · obtain ⟨a, b⟩ := hw u w2 hu
      refine ⟨a, fun v2 hv2 => ?_⟩
      obtain ⟨b1, b2, b3⟩ := b v2 hv2
      exact ⟨b1, b2, by push_cast; omega⟩

theorem upperInv_run (W n : Nat) (sched : List Nat) : UpperInv n (run W n sched) :=
  execWith_invariant incrExact n (UpperInv n) (fun m t h => upperInv_step n m t h) sched _
    (upperInv_init W n)

theorem length_stepWith (incr : Int → Int) (n : Nat) (m : Mem) (t : Nat) :
    (stepWith incr n m t).workers.length = m.workers.length := by
  rcases stepWith_cases incr n m t with he | ⟨w, _, _, _, he⟩ | ⟨w, v, _, _, he⟩ <;> rw [he] <;> simp

theorem length_execWith (incr : Int → Int) (n : Nat) (sched : List Nat) (m : Mem) :
    (execWith incr n m sched).workers.length = m.workers.length :=
  execWith_invariant incr n (fun m' => m'.workers.length = m.workers.length)
    (fun m' t h => (length_stepWith incr n m' t).trans h) sched m rfl

theorem length_run (W n : Nat) (sched : List Nat) : (run W n sched).workers.length = W := by
  rw [run, length_execWith]
  simp [Mem.init]

theorem upperInv_counter_le (n : Nat) (m : Mem) (h : UpperInv n m) :
    m.counter ≤ ((m.workers.length * n : Nat) : Int) := by
  have h1 := total_le_of_forall n m.workers (fun u w hu => (h.2.2 u w hu).1)
  have h2 := h.2.1
  exact le_trans h2 (by exact_mod_cast h1)

/-- C1 (upper bound). At every point of every interleaving of `W` workers with
`n` increments each, started from `counter = 0`, and in particular once all
workers have finished, the counter is at most `W * n`; for the constants of the
program it is at most 20,000,000. -/
theorem counter_upper_bound (W n : Nat) (sched : List Nat) :
    (run W n sched).counter ≤ ((W * n : Nat) : Int) ∧
    (run NUM_THREADS NUM_INCREMENTS sched).counter ≤ 20000000 := by
  have key : ∀ W n : Nat, (run W n sched).counter ≤ ((W * n : Nat) : Int) := by
    intro W n
    have h := upperInv_counter_le n _ (upperInv_run W n sched)
    rwa [length_run] at h
  refine ⟨key W n, ?_⟩
  have h := key NUM_THREADS NUM_INCREMENTS
  simpa [NUM_THREADS, NUM_INCREMENTS] using h

/-! ## 32-bit arithmetic -/

theorem wrapInt32_eq (x : Int) (h0 : 0 ≤ x) (h1 : x ≤ INT_MAX) : wrapInt32 x = x := by
  unfold INT_MAX at h1
  unfold wrapInt32
  norm_num at h1 ⊢
  omega

theorem step_counter_of_pending (n : Nat) (m : Mem) (t : Nat) (w : Worker) (v : Int)
    (hget : m.workers[t]? = some w) (hreg : w.reg = some v) : (step n m t).counter = v + 1 := by
  simp [step, stepWith, hget, AddThings, hreg, incrExact]

/-- A loaded value is non-negative and its successor is at most `W * n`. -/
theorem pending_succ_le (n : Nat) (m : Mem) (t : Nat) (w : Worker) (v : Int) (h : UpperInv n m)
    (hget : m.workers[t]? = some w) (hreg : w.reg = some v) :
    0 ≤ v ∧ v + 1 ≤ ((m.workers.length * n : Nat) : Int) := by
  have hs := upperInv_counter_le n _ (upperInv_step n m t h)
  rw [step, length_stepWith, ← step, step_counter_of_pending n m t w v hget hreg] at hs
  exact ⟨((h.2.2 t w hget).2 v hreg).2.1, hs⟩

theorem stepWith32_eq (n : Nat) (m : Mem) (t : Nat) (h : UpperInv n m)
    (hb : ((m.workers.length * n : Nat) : Int) ≤ INT_MAX) :
    stepWith incrInt32 n m t = stepWith incrExact n m t := by
  unfold stepWith
  cases hget : m.workers[t]? with
  | none => rfl
  | some w =>
    obtain ⟨i, reg⟩ := w
    cases reg with
    | none => rfl
    | some v =>
      obtain ⟨h0, h1⟩ := pending_succ_le n m t _ v h hget rfl
      have : incrInt32 v = incrExact v :=
        wrapInt32_eq (v + 1) (by omega) (le_trans h1 hb)
      simp [AddThings, this]

theorem execWith32_eq (n : Nat) :
    ∀ (sched : List Nat) (m : Mem), UpperInv n m →
      ((m.workers.length * n : Nat) : Int) ≤ INT_MAX →
      execWith incrInt32 n m sched = execWith incrExact n m sched
  | [], _, _, _ => rfl
  | t :: sched, m, h, hb => by
    rw [execWith_cons, execWith_cons, stepWith32_eq n m t h hb]
    refine execWith32_eq n sched _ (upperInv_step n m t h) ?_
    rw [length_stepWith]
    exact hb

/-- For every number of workers and increments whose product fits an `int`, the run with
a 32-bit counter coincides with the run in unbounded integers. -/
theorem run32_eq_run (W n : Nat) (hb : ((W * n : Nat) : Int) ≤ INT_MAX) (sched : List Nat) :
    run32 W n sched = run W n sched := by
  refine execWith32_eq n sched (Mem.init W) (upperInv_init W n) ?_
  simpa [Mem.init] using hb

/-- C10 (no signed overflow). With `NUM_THREADS = 20` and `NUM_INCREMENTS = 1000000`,
at every point of every interleaving the 32-bit run equals the run in unbounded
integers, the `int` counter lies in `[0, 20000000]`, which is below `INT_MAX`,
and every loaded value `v` satisfies `0 ≤ v`, `v + 1 ≤ 20000000` and the 32-bit
`v + 1` equals the exact `v + 1`: `counter += 1` never wraps. -/
theorem no_signed_overflow (sched : List Nat) :
    run32 NUM_THREADS NUM_INCREMENTS sched = run NUM_THREADS NUM_INCREMENTS sched ∧
    0 ≤ (run32 NUM_THREADS NUM_INCREMENTS sched).counter ∧
    (run32 NUM_THREADS NUM_INCREMENTS sched).counter ≤ 20000000 ∧
    (20000000 : Int) < INT_MAX ∧
    ∀ (t : Nat) (w : Worker) (v : Int),
      (run32 NUM_THREADS NUM_INCREMENTS sched).workers[t]? = some w → w.reg = some v →
        0 ≤ v ∧ v + 1 ≤ 20000000 ∧ incrInt32 v = v + 1 := by
  have hb : (((NUM_THREADS * NUM_INCREMENTS : Nat)) : Int) ≤ INT_MAX := by
    norm_num [NUM_THREADS, NUM_INCREMENTS, INT_MAX]
  have heq := run32_eq_run NUM_THREADS NUM_INCREMENTS hb sched
  have hinv := upperInv_run NUM_THREADS NUM_INCREMENTS sched
  have hle := upperInv_counter_le _ _ hinv
  have hlen := length_run NUM_THREADS NUM_INCREMENTS sched
  have hmax : (20000000 : Int) < INT_MAX := by norm_num [INT_MAX]
  rw [heq]
  refine ⟨rfl, hinv.1, ?_, hmax, ?_⟩
  · rw [hlen] at hle
    simpa [NUM_THREADS, NUM_INCREMENTS] using hle
  · intro t w v hget hreg
    obtain ⟨h0, h1⟩ := pending_succ_le _ _ t w v hinv hget hreg
    rw [hlen] at h1
    have h2 : v + 1 ≤ 20000000 := by simpa [NUM_THREADS, NUM_INCREMENTS] using h1
    exact ⟨h0, h2, wrapInt32_eq (v + 1) (by omega) (by omega)⟩

/-! ## Lower bound -/

theorem allDone_iff (n : Nat) (m : Mem) :
    m.allDone n = true ↔
      ∀ (u : Nat) (w : Worker), m.workers[u]? = some w → w.reg = none ∧ n ≤ w.i := by
  unfold Mem.allDone
  rw [List.all_eq_true]
  constructor
  · intro h u w hu
    have := h w (List.mem_iff_getElem?.mpr ⟨u, hu⟩)
    simpa [Worker.done] using this
  · intro h w hw
    obtain ⟨u, hu⟩ := List.mem_iff_getElem?.mp hw
    have := h u w hu
    simp [Worker.done, this.1, this.2]

theorem sysExecFrom_nil (W n : Nat) (rc : Nat → Int) (s : Sys) : sysExecFrom W n rc s [] = s := rfl

theorem sysExecFrom_cons (W n : Nat) (rc : Nat → Int) (s : Sys) (x : Tid) (sched : List Tid) :
    sysExecFrom W n rc s (x :: sched) = sysExecFrom W n rc (sysStep W n rc s x) sched := rfl

theorem sysExecFrom_append (W n : Nat) (rc : Nat → Int) (s : Sys) (s₁ s₂ : List Tid) :
    sysExecFrom W n rc s (s₁ ++ s₂) = sysExecFrom W n rc (sysExecFrom W n rc s s₁) s₂ := by
  simp [sysExecFrom, List.foldl_append]

theorem sysExec_snoc (W n : Nat) (rc : Nat → Int) (sched : List Tid) (x : Tid) :
    sysExec W n rc (sched ++ [x]) = sysStep W n rc (sysExec W n rc sched) x := by
  simp [sysExec, sysExecFrom, List.foldl_append]

/-- A property of the process preserved by every step holds after every schedule. -/
theorem sysExecFrom_invariant (W n : Nat) (rc : Nat → Int) (P : Sys → Prop)
    (hstep : ∀ s x, P s → P (sysStep W n rc s x)) :
    ∀ (sched : List Tid) (s : Sys), P s → P (sysExecFrom W n rc s sched)
  | [], _, h => h
  | x :: sched, s, h => sysExecFrom_invariant W n rc P hstep sched _ (hstep s x h)

theorem spawnActions_succ (k : Nat) : spawnActions (k + 1) = spawnActions k ++ [.create k 0] := by
  simp [spawnActions, List.range_succ]

theorem joinActions_succ (k : Nat) : joinActions (k + 1) = joinActions k ++ [.join k] := by
  simp [joinActions, List.range_succ]

theorem step_of_done (n : Nat) (m : Mem) (t : Nat) (w : Worker) (hget : m.workers[t]? = some w)
    (hd : w.done n = true) : step n m t = m := by
  obtain ⟨i, reg⟩ := w
  simp only [Worker.done, Bool.and_eq_true, Option.isNone_iff_eq_none, decide_eq_true_eq] at hd
  obtain ⟨rfl, hi⟩ := hd
  simp [step, stepWith, hget, AddThings, Nat.not_lt.mpr hi, set_same _ _ _ hget]

theorem step_of_none (n : Nat) (m : Mem) (t : Nat) (hget : m.workers[t]? = none) :
    step n m t = m := by
  simp [step, stepWith, hget]

theorem step_of_allDone (n : Nat) (m : Mem) (t : Nat) (h : m.allDone n = true) :
    step n m t = m := by
  cases hget : m.workers[t]? with
  | none => exact step_of_none n m t hget
  | some w =>
    have := (allDone_iff n m).mp h t w hget
    exact step_of_done n m t w hget (by simp [Worker.done, this.1, this.2])

/-- A worker that has terminated is not changed by any step. -/
theorem done_stable (n : Nat) (m : Mem) (t u : Nat) (w : Worker) (hu : m.workers[u]? = some w)
    (hd : w.done n = true) : (step n m t).workers[u]? = some w := by
  by_cases hut : u = t
  · subst hut
    rw [step_of_done n m u w hu hd]
    exact hu
  · rcases stepWith_cases incrExact n m t with he | ⟨x, _, _, _, he⟩ | ⟨x, v, _, _, he⟩
    · rw [step, he]
      exact hu
    · rw [step, he]
      simpa [List.getElem?_set_ne (Ne.symm hut)] using hu
    · rw [step, he]
      simpa [List.getElem?_set_ne (Ne.symm hut)] using hu

theorem sysInv_init (W n : Nat) (rc : Nat → Int) : SysInv W n rc Sys.init := by
  simp [SysInv, Sys.init, spawnActions]

theorem sysInv_mainStep (W n : Nat) (rc : Nat → Int) (s : Sys) (h : SysInv W n rc s) :
    SysInv W n rc (mainStep W n rc s) := by
  obtain ⟨pc, mem, trace⟩ := s
  cases pc with
  | spawn k =>
    obtain ⟨hk, hrc, htr, hlen⟩ := h
    simp only at htr hlen
    by_cases hkW : k < W
    · by_cases hr : rc k = 0
      · have e : mainStep W n rc ⟨.spawn k, mem, trace⟩ =
            ⟨.spawn (k + 1), { mem with workers := mem.workers ++ [Worker.init] },
              trace ++ [.create k 0]⟩ := by
          simp [mainStep, hkW, hr]
        rw [e]
        refine ⟨hkW, ?_, ?_, ?_⟩
        · intro t ht
          rcases Nat.lt_succ_iff_lt_or_eq.mp ht with h1 | h1
          · exact hrc t h1
          · rw [h1]
            exact hr
        · simp only [htr, spawnActions_succ]
        · simp [hlen]
      · have e : mainStep W n rc ⟨.spawn k, mem, trace⟩ =
            ⟨.exited 1, mem, trace ++ [.create k (rc k), .printError (rc k), .exit 1]⟩ := by
          simp [mainStep, hkW, hr]
        rw [e]
        exact ⟨rfl, k, hkW, hr, hrc, by simp only [htr], hlen⟩
    · have e : mainStep W n rc ⟨.spawn k, mem, trace⟩ = ⟨.join 0, mem, trace⟩ := by
        simp [mainStep, hkW]
      have hkeq : k = W := le_antisymm hk (Nat.le_of_not_lt hkW)
      subst hkeq
      rw [e]
      exact ⟨Nat.zero_le _, hrc, by simp [htr, joinActions], hlen, fun t ht => absurd ht (Nat.not_lt_zero t)⟩
  | join k =>
    obtain ⟨hk, hrc, htr, hlen, hdone⟩ := h
    simp only at htr hlen hdone
    by_cases hkW : k < W
    · cases hget : mem.workers[k]? with
      | none =>
        have e : mainStep W n rc ⟨.join k, mem, trace⟩ = ⟨.join k, mem, trace⟩ := by
          simp [mainStep, hkW, hget]
        rw [e]
        exact ⟨hk, hrc, htr, hlen, hdone⟩
      | some w =>
        by_cases hd : w.done n = true
        · have e : mainStep W n rc ⟨.join k, mem, trace⟩ =
              ⟨.join (k + 1), mem, trace ++ [.join k]⟩ := by
            simp [mainStep, hkW, hget, hd]
          rw [e]
          refine ⟨hkW, hrc, by simp only [htr, joinActions_succ, List.append_assoc], hlen, ?_⟩
          intro t ht
          rcases Nat.lt_succ_iff_lt_or_eq.mp ht with h1 | h1
          · exact hdone t h1
          · rw [h1]
            exact ⟨w, hget, hd⟩
        · have e : mainStep W n rc ⟨.join k, mem, trace⟩ = ⟨.join k, mem, trace⟩ := by
            simp [mainStep, hkW, hget, hd]
          rw [e]
          exact ⟨hk, hrc, htr, hlen, hdone⟩
    · have e : mainStep W n rc ⟨.join k, mem, trace⟩ = ⟨.report, mem, trace⟩ := by
        simp [mainStep, hkW]
      have hkeq : k = W := le_antisymm hk (Nat.le_of_not_lt hkW)
      subst hkeq
      rw [e]
      refine ⟨hrc, htr, hlen, ?_⟩
      rw [allDone_iff]
      intro u w hu
      obtain ⟨hlt, -⟩ := List.getElem?_eq_some.mp hu
      have hlt2 : u < mem.workers.length := hlt
      obtain ⟨w2, hw2, hd2⟩ := hdone u (by omega)
      rw [hu] at hw2
      cases hw2
      simpa [Worker.done] using hd2
  | report =>
    obtain ⟨hrc, htr, hlen, hdone⟩ := h
    simp only at htr hlen hdone
    have e : mainStep W n rc ⟨.report, mem, trace⟩ =
        ⟨.finished, mem, trace ++ [.printFinal mem.counter, .threadExit]⟩ := by
      simp [mainStep]
    rw [e]
    exact ⟨hrc, by simp only [htr], hlen, hdone⟩
  | exited st => exact h
  | finished => exact h

theorem sysInv_step (W n : Nat) (rc : Nat → Int) (s : Sys) (x : Tid) (h : SysInv W n rc s) :
    SysInv W n rc (sysStep W n rc s x) := by
  cases x with
  | main => exact sysInv_mainStep W n rc s h
  | worker t =>
    obtain ⟨pc, mem, trace⟩ := s
    cases pc with
    | spawn k =>
      obtain ⟨hk, hrc, htr, hlen⟩ := h
      exact ⟨hk, hrc, htr, by simpa [sysStep, step, length_stepWith] using hlen⟩
    | join k =>
      obtain ⟨hk, hrc, htr, hlen, hdone⟩ := h
      refine ⟨hk, hrc, htr, by simpa [sysStep, step, length_stepWith] using hlen, ?_⟩
      intro u hu
      obtain ⟨w, hw, hd⟩ := hdone u hu
      exact ⟨w, done_stable n mem t u w hw hd, hd⟩
    | report =>
      obtain ⟨hrc, htr, hlen, hdone⟩ := h
      simp only at htr hlen hdone
      simp only [sysStep, step_of_allDone n mem t hdone]
      exact ⟨hrc, htr, hlen, hdone⟩
    | exited st => exact h
    | finished =>
      obtain ⟨hrc, htr, hlen, hdone⟩ := h
      simp only at htr hlen hdone
      simp only [sysStep, step_of_allDone n mem t hdone]
      exact ⟨hrc, htr, hlen, hdone⟩

theorem sysInv_sysExec (W n : Nat) (rc : Nat → Int) (sched : List Tid) :
    SysInv W n rc (sysExec W n rc sched) :=
  sysExecFrom_invariant W n rc (SysInv W n rc) (fun s x h => sysInv_step W n rc s x h) sched _
    (sysInv_init W n rc)

/-! ## The memory of the process is a run of the worker model -/

theorem stdout_append (a b : List Action) : stdout (a ++ b) = stdout a ++ stdout b := by
  simp [stdout, List.filterMap_append]

theorem stdout_spawnActions (k : Nat) : stdout (spawnActions k) = [] := by
  induction k with
  | zero => rfl
  | succ k ih => rw [spawnActions_succ, stdout_append, ih]; rfl

theorem spawnCount_spawnActions (k : Nat) : spawnCount (spawnActions k) = k := by
  induction k with
  | zero => rfl
  | succ k ih =>
    rw [spawnActions_succ, spawnCount, List.countP_append, ← spawnCount, ih]
    simp [Action.isSpawn]

theorem joinCount_spawnActions (k : Nat) : joinCount (spawnActions k) = 0 := by
  induction k with
  | zero => rfl
  | succ k ih =>
    rw [spawnActions_succ, joinCount, List.countP_append, ← joinCount, ih]
    simp [Action.isJoin]

theorem spawnCount_joinActions (k : Nat) : spawnCount (joinActions k) = 0 := by
  induction k with
  | zero => rfl
  | succ k ih =>
    rw [joinActions_succ, spawnCount, List.countP_append, ← spawnCount, ih]
    simp [Action.isSpawn]

theorem joinCount_joinActions (k : Nat) : joinCount (joinActions k) = k := by
  induction k with
  | zero => rfl
  | succ k ih =>
    rw [joinActions_succ, joinCount, List.countP_append, ← joinCount, ih]
    simp [Action.isJoin]

/-! ## Successful runs -/

/-- C4 (report after every join). Whenever the report of value `c` occurs in the
trace of `main`, the trace is exactly: the successful creation of all `W` threads,
the join of each of the `W` threads, the report, `pthread_exit`. So every spawn
and every join precedes the report, nothing but `pthread_exit` follows it, every
`pthread_create` returned 0, all `W` workers have terminated, and `c` is the
counter value in memory. -/
theorem report_after_all_joins (W n : Nat) (rc : Nat → Int) (sched : List Tid) (c : Int)
    (hrep : Action.printFinal c ∈ (sysExec W n rc sched).trace) :
    (sysExec W n rc sched).trace =
      spawnActions W ++ joinActions W ++ [.printFinal c, .threadExit] ∧
    (∀ t, t < W → Action.create t 0 ∈ spawnActions W ∧ Action.join t ∈ joinActions W) ∧
    Action.printFinal c ∉ spawnActions W ++ joinActions W ∧
    (∀ t, t < W → rc t = 0) ∧
    (sysExec W n rc sched).mem.workers.length = W ∧
    (sysExec W n rc sched).mem.allDone n = true ∧
    c = (sysExec W n rc sched).mem.counter := by
  have hinv := sysInv_sysExec W n rc sched
  generalize sysExec W n rc sched = s at hinv hrep
  obtain ⟨pc, mem, trace⟩ := s
  have hmem : ∀ t, t < W → Action.create t 0 ∈ spawnActions W ∧ Action.join t ∈ joinActions W := by
    intro t ht
    simp [spawnActions, joinActions, ht]
  have hnot : Action.printFinal c ∉ spawnActions W ++ joinActions W := by
    simp [spawnActions, joinActions]
  cases pc with
  | spawn k =>
    obtain ⟨-, -, htr, -⟩ := hinv
    simp only at htr hrep
    simp [htr, spawnActions] at hrep
  | join k =>
    obtain ⟨-, -, htr, -⟩ := hinv
    simp only at htr hrep
    simp [htr, spawnActions, joinActions] at hrep
  | report =>
    obtain ⟨-, htr, -⟩ := hinv
    simp only at htr hrep
    simp [htr, spawnActions, joinActions] at hrep
  | exited st =>
    obtain ⟨-, k, -, -, -, htr, -⟩ := hinv
    simp only at htr hrep
    simp [htr, spawnActions] at hrep
  | finished =>
    obtain ⟨hrc, htr, hlen, hdone⟩ := hinv
    simp only at htr hrep hlen hdone
    have hc : c = mem.counter := by
      simpa [htr, spawnActions, joinActions] using hrep
    subst hc
    exact ⟨htr, hmem, hnot, hrc, hlen, hdone, rfl⟩

theorem report_after_all_joins_witness :
    Action.printFinal 1 ∈ (sysExec 2 1 (fun _ => 0)
      [.main, .main, .worker 0, .main, .worker 1, .worker 0, .worker 1, .main, .main, .main,
        .main]).trace ∧
    (sysExec 2 1 (fun _ => 0)
      [.main, .main, .worker 0, .main, .worker 1, .worker 0, .worker 1, .main, .main, .main,
        .main]).trace = spawnActions 2 ++ joinActions 2 ++ [.printFinal 1, .threadExit] :=
  ⟨by decide, (report_after_all_joins 2 1 (fun _ => 0) _ 1 (by decide)).1⟩

/-! ## Failure of `pthread_create` -/

theorem sysStep_worker_pc (W n : Nat) (rc : Nat → Int) (s : Sys) (t : Nat) :
    (sysStep W n rc s (.worker t)).pc = s.pc := by
  obtain ⟨pc, mem, trace⟩ := s
  cases pc <;> rfl

theorem mainStep_pc_spawn_ok (W n : Nat) (rc : Nat → Int) (s : Sys) (k : Nat)
    (hpc : s.pc = .spawn k) (hk : k < W) (hr : rc k = 0) :
    (mainStep W n rc s).pc = .spawn (k + 1) := by
  obtain ⟨pc, mem, trace⟩ := s
  cases hpc
  simp [mainStep, hk, hr]

theorem mainStep_pc_spawn_fail (W n : Nat) (rc : Nat → Int) (s : Sys) (k : Nat)
    (hpc : s.pc = .spawn k) (hk : k < W) (hr : rc k ≠ 0) :
    (mainStep W n rc s).pc = .exited 1 := by
  obtain ⟨pc, mem, trace⟩ := s
  cases hpc
  simp [mainStep, hk, hr]

theorem mainStep_pc_exited (W n : Nat) (rc : Nat → Int) (s : Sys) (st : Int)
    (hpc : s.pc = .exited st) : (mainStep W n rc s).pc = .exited st := by
  obtain ⟨pc, mem, trace⟩ := s
  cases hpc
  rfl

theorem sysStep_of_exited (W n : Nat) (rc : Nat → Int) (s : Sys) (st : Int) (x : Tid)
    (hpc : s.pc = .exited st) : sysStep W n rc s x = s := by
  obtain ⟨pc, mem, trace⟩ := s
  cases hpc
  cases x <;> rfl

/-- After `exit` no schedule changes the state of the process. -/
theorem sysExecFrom_of_exited (W n : Nat) (rc : Nat → Int) (st : Int) :
    ∀ (more : List Tid) (s : Sys), s.pc = .exited st → sysExecFrom W n rc s more = s
  | [], _, _ => rfl
  | x :: more, s, hpc => by
    rw [sysExecFrom_cons, sysStep_of_exited W n rc s st x hpc]
    exact sysExecFrom_of_exited W n rc st more s hpc

/-- When creation `j` is the first to fail, `main` is in the creation loop for its
first `j` steps and has exited with status 1 from step `j + 1` on. -/
theorem pc_of_failure (W n : Nat) (rc : Nat → Int) (j : Nat) (hj : j < W)
    (hok : ∀ t, t < j → rc t = 0) (hfail : rc j ≠ 0) (sched : List Tid) :
    (sched.count Tid.main ≤ j → (sysExec W n rc sched).pc = .spawn (sched.count Tid.main)) ∧
    (j < sched.count Tid.main → (sysExec W n rc sched).pc = .exited 1) := by
  induction sched using List.reverseRecOn with
  | nil => exact ⟨fun _ => rfl, fun h => by simp at h⟩
  | append_singleton sched x ih =>
    rw [sysExec_snoc, List.count_append]
    cases x with
    | worker t =>
      have hc : List.count Tid.main [Tid.worker t] = 0 := by
        simp [List.count_cons]
      rw [hc, Nat.add_zero, sysStep_worker_pc]
      exact ih
    | main =>
      have hc : List.count Tid.main [Tid.main] = 1 := by decide
      rw [hc]
      simp only [sysStep]
      constructor
      · intro hle
        have hlt : sched.count Tid.main < j := by omega
        exact mainStep_pc_spawn_ok W n rc _ _ (ih.1 (by omega)) (by omega) (hok _ hlt)
      · intro hlt
        rcases Nat.lt_or_ge j (sched.count Tid.main) with h1 | h1
        · exact mainStep_pc_exited W n rc _ 1 (ih.2 h1)
        · have heq : sched.count Tid.main = j := by omega
          have hpc := ih.1 h1
          rw [heq] at hpc
          exact mainStep_pc_spawn_fail W n rc _ j hpc hj hfail

theorem trace_of_exited (W n : Nat) (rc : Nat → Int) (j : Nat)
    (hok : ∀ t, t < j → rc t = 0) (hfail : rc j ≠ 0) (sched : List Tid) (st : Int)
    (hpc : (sysExec W n rc sched).pc = .exited st) :
    st = 1 ∧ (sysExec W n rc sched).trace =
      spawnActions j ++ [.create j (rc j), .printError (rc j), .exit 1] := by
  have hinv := sysInv_sysExec W n rc sched
  unfold SysInv at hinv
  rw [hpc] at hinv
  obtain ⟨hst, k, -, hne, hk0, htr, -⟩ := hinv
  have hkj : k = j := by
    rcases Nat.lt_trichotomy k j with h | h | h
    · exact absurd (hok k h) hne
    · exact h
    · exact absurd (hk0 j h) hfail
  subst hkj
  exact ⟨hst, htr⟩

theorem trace_of_failure (W n : Nat) (rc : Nat → Int) (j : Nat) (hj : j < W)
    (hok : ∀ t, t < j → rc t = 0) (hfail : rc j ≠ 0) (sched : List Tid) :
    (∃ k, k ≤ j ∧ (sysExec W n rc sched).pc = .spawn k ∧
      (sysExec W n rc sched).trace = spawnActions k) ∨
    ((sysExec W n rc sched).pc = .exited 1 ∧ (sysExec W n rc sched).trace =
      spawnActions j ++ [.create j (rc j), .printError (rc j), .exit 1]) := by
  rcases Nat.lt_or_ge j (sched.count Tid.main) with h | h
  · have hpc := (pc_of_failure W n rc j hj hok hfail sched).2 h
    exact Or.inr ⟨hpc, (trace_of_exited W n rc j hok hfail sched 1 hpc).2⟩
  · have hpc := (pc_of_failure W n rc j hj hok hfail sched).1 h
    have hinv := sysInv_sysExec W n rc sched
    unfold SysInv at hinv
    rw [hpc] at hinv
    exact Or.inl ⟨_, h, hpc, hinv.2.2.1⟩

/-- C3 (fail-fast on spawn failure). Let creation `j` (0-based, so `j = k - 1` for the `k`-th worker)
be the first whose `pthread_create` returns a non-zero code. Under every schedule:
while `main` has taken at most `j` steps it is in the creation loop and the trace
is that many successful creations; once it has taken more than `j` steps it has
exited with status 1, the trace is the `j` successful creations, the failed
creation, the error line with the code, and `exit(1)`, and standard output is that
error line alone, and no further scheduling of any thread changes the process. At
no point does the trace contain a join, the final report, or a creation beyond
`j`, and `main` never reaches its end. -/
theorem spawn_failure_fail_fast (W n : Nat) (rc : Nat → Int) (j : Nat) (hj : j < W)
    (hok : ∀ t, t < j → rc t = 0) (hfail : rc j ≠ 0) (sched : List Tid) :
    (sched.count Tid.main ≤ j →
      (sysExec W n rc sched).pc = .spawn (sched.count Tid.main) ∧
      (sysExec W n rc sched).trace = spawnActions (sched.count Tid.main)) ∧
    (j < sched.count Tid.main →
      (sysExec W n rc sched).pc = .exited 1 ∧
      (sysExec W n rc sched).trace =
        spawnActions j ++ [.create j (rc j), .printError (rc j), .exit 1] ∧
      stdout (sysExec W n rc sched).trace =
        ["ERROR; return code from pthread_create() is " ++ toString (rc j) ++ "\n"] ∧
      ∀ more : List Tid, sysExec W n rc (sched ++ more) = sysExec W n rc sched) ∧
    (∀ t, Action.join t ∉ (sysExec W n rc sched).trace) ∧
    (∀ c, Action.printFinal c ∉ (sysExec W n rc sched).trace) ∧
    (∀ t r, Action.create t r ∈ (sysExec W n rc sched).trace → t ≤ j) ∧
    (sysExec W n rc sched).pc ≠ .finished := by
  have hshape := trace_of_failure W n rc j hj hok hfail sched
  have hpcs := pc_of_failure W n rc j hj hok hfail sched
  refine ⟨?_, ?_, ?_, ?_, ?_, ?_⟩
  · intro hle
    have hpc := hpcs.1 hle
    rcases hshape with ⟨k, -, hk, htr⟩ | ⟨he, -⟩
    · rw [hpc] at hk
      cases hk
      exact ⟨hpc, htr⟩
    · rw [hpc] at he
      cases he
  · intro hlt
    have hpc := hpcs.2 hlt
    have htr := (trace_of_exited W n rc j hok hfail sched 1 hpc).2
    refine ⟨hpc, htr, ?_, ?_⟩
    · rw [htr, stdout_append, stdout_spawnActions]
      rfl
    · intro more
      rw [sysExec, sysExecFrom_append]
      exact sysExecFrom_of_exited W n rc 1 more _ hpc
  · intro t
    rcases hshape with ⟨k, -, -, htr⟩ | ⟨-, htr⟩ <;> simp [htr, spawnActions]
  · intro c
    rcases hshape with ⟨k, -, -, htr⟩ | ⟨-, htr⟩ <;> simp [htr, spawnActions]
  · intro t r hmem
    rcases hshape with ⟨k, hk, -, htr⟩ | ⟨-, htr⟩
    · simp only [htr, spawnActions, List.mem_map, List.mem_range] at hmem
      obtain ⟨a, ha, he⟩ := hmem
      cases he
      omega
    · simp only [htr, spawnActions, List.mem_append, List.mem_map, List.mem_range,
        List.mem_cons, List.mem_singleton] at hmem
      rcases hmem with ⟨a, ha, he⟩ | he | he | he
      · cases he
        omega
      · cases he
        exact le_refl _
      · cases he
      · rcases he with he | he
        · cases he
        · cases he
  · rcases hshape with ⟨k, -, hk, -⟩ | ⟨he, -⟩
    · rw [hk]
      exact fun h => by cases h
    · rw [he]
      exact fun h => by cases h

theorem spawn_failure_fail_fast_witness :
    1 < 3 ∧ (∀ t, t < 1 → (fun t : Nat => if t = 1 then (11 : Int) else 0) t = 0) ∧
    (fun t : Nat => if t = 1 then (11 : Int) else 0) 1 ≠ 0 ∧
    (sysExec 3 2 (fun t => if t = 1 then 11 else 0) [.main, .worker 0, .main, .worker 0]).pc
      = .exited 1 ∧
    (sysExec 3 2 (fun t => if t = 1 then 11 else 0) [.main, .worker 0, .main, .worker 0]).trace
      = [.create 0 0, .create 1 11, .printError 11, .exit 1] ∧
    ∀ t, Action.join t ∉
      (sysExec 3 2 (fun t => if t = 1 then 11 else 0) [.main, .worker 0, .main, .worker 0]).trace :=
  ⟨by decide, fun t ht => by simp [Nat.lt_one_iff.mp ht], by decide, by decide, by decide,
    (spawn_failure_fail_fast 3 2 (fun t => if t = 1 then 11 else 0) 1 (by decide)
      (fun t ht => by simp [Nat.lt_one_iff.mp ht]) (by decide)
      [.main, .worker 0, .main, .worker 0]).2.2.1⟩

/-! ## Number of joins and number of spawns -/

/-- C5 as stated fails: with the constants of the program, when the second
`pthread_create` returns 11, `main` exits after one successful spawn and no join. -/
theorem join_count_counterexample :
    (sysExec NUM_THREADS NUM_INCREMENTS (fun t => if t = 1 then 11 else 0) [.main, .main]).pc
      = .exited 1 ∧
    spawnCount (sysExec NUM_THREADS NUM_INCREMENTS (fun t => if t = 1 then 11 else 0)
      [.main, .main]).trace = 1 ∧
    joinCount (sysExec NUM_THREADS NUM_INCREMENTS (fun t => if t = 1 then 11 else 0)
      [.main, .main]).trace = 0 ∧
    joinCount (sysExec NUM_THREADS NUM_INCREMENTS (fun t => if t = 1 then 11 else 0)
      [.main, .main]).trace ≠
    spawnCount (sysExec NUM_THREADS NUM_INCREMENTS (fun t => if t = 1 then 11 else 0)
      [.main, .main]).trace := by
  decide

theorem counts_of_terminated (W n : Nat) (rc : Nat → Int) (sched : List Tid)
    (hterm : (sysExec W n rc sched).terminated = true) :
    ((sysExec W n rc sched).pc = .finished ∧ (∀ t, t < W → rc t = 0) ∧
      joinCount (sysExec W n rc sched).trace = spawnCount (sysExec W n rc sched).trace ∧
      spawnCount (sysExec W n rc sched).trace = W) ∨
    ((sysExec W n rc sched).pc = .exited 1 ∧
      joinCount (sysExec W n rc sched).trace = 0 ∧
      ∃ k, k < W ∧ rc k ≠ 0 ∧ (∀ t, t < k → rc t = 0) ∧
        spawnCount (sysExec W n rc sched).trace = k) := by
  have hinv := sysInv_sysExec W n rc sched
  generalize sysExec W n rc sched = s at hinv hterm
  obtain ⟨pc, mem, trace⟩ := s
  cases pc with
  | spawn k => simp [Sys.terminated] at hterm
  | join k => simp [Sys.terminated] at hterm
  | report => simp [Sys.terminated] at hterm
  | exited st =>
    obtain ⟨hst, k, hk, hne, hk0, htr, -⟩ := hinv
    simp only at htr
    subst hst
    refine Or.inr ⟨rfl, ?_, k, hk, hne, hk0, ?_⟩
    · simp only [htr]
      rw [joinCount, List.countP_append, ← joinCount, joinCount_spawnActions]
      simp [Action.isJoin]
    · simp only [htr]
      rw [spawnCount, List.countP_append, ← spawnCount, spawnCount_spawnActions]
      simp [Action.isSpawn, hne]
  | finished =>
    obtain ⟨hrc, htr, -, -⟩ := hinv
    simp only at htr
    have hj : joinCount trace = W := by
      rw [htr, joinCount, List.countP_append, List.countP_append, ← joinCount, ← joinCount,
        joinCount_spawnActions, joinCount_joinActions]
      simp [Action.isJoin]
    have hs : spawnCount trace = W := by
      rw [htr, spawnCount, List.countP_append, List.countP_append, ← spawnCount, ← spawnCount,
        spawnCount_spawnActions, spawnCount_joinActions]
      simp [Action.isSpawn]
    exact Or.inl ⟨rfl, hrc, by simp only [hj, hs], hs⟩

/-- C5 (amended spawn/join count). In every terminated run of `main`: either `main`
reached its end, every `pthread_create` returned 0, and the number of joins equals
the number of successful spawns, both being `W`; or `main` called `exit(1)` at the
first failing creation `k`, after `k` successful spawns and no join at all. -/
theorem join_count_of_terminated (W n : Nat) (rc : Nat → Int) (sched : List Tid)
    (hterm : (sysExec W n rc sched).terminated = true) :
    ((sysExec W n rc sched).pc = .finished ∧ (∀ t, t < W → rc t = 0) ∧
      joinCount (sysExec W n rc sched).trace = spawnCount (sysExec W n rc sched).trace ∧
      spawnCount (sysExec W n rc sched).trace = W) ∨
    ((sysExec W n rc sched).pc = .exited 1 ∧
      joinCount (sysExec W n rc sched).trace = 0 ∧
      ∃ k, k < W ∧ rc k ≠ 0 ∧ (∀ t, t < k → rc t = 0) ∧
        spawnCount (sysExec W n rc sched).trace = k) :=
  counts_of_terminated W n rc sched hterm

theorem join_count_of_terminated_witness :
    (sysExec 2 1 (fun _ => 0)
      [.main, .main, .worker 0, .main, .worker 1, .worker 0, .worker 1, .main, .main, .main,
        .main]).terminated = true ∧
    joinCount (sysExec 2 1 (fun _ => 0)
      [.main, .main, .worker 0, .main, .worker 1, .worker 0, .worker 1, .main, .main, .main,
        .main]).trace =
    spawnCount (sysExec 2 1 (fun _ => 0)
      [.main, .main, .worker 0, .main, .worker 1, .worker 0, .worker 1, .main, .main, .main,
        .main]).trace :=
  ⟨by decide,
    (join_count_of_terminated 2 1 (fun _ => 0)
      [.main, .main, .worker 0, .main, .worker 1, .worker 0, .worker 1, .main, .main, .main,
        .main] (by decide)).elim (fun h => h.2.2.1) (fun h => absurd h.1 (by decide))⟩

/-! ## At most one worker -/

end SharedCounter
